import Mathlib

/-!
Verification of the quokka HTTP framework's routing engine, middleware
composition, token-bucket rate limiter, buffering gzip response wrapper and
write-once request context.  Go code is shallowly embedded: pointer-mutating
functions become pure state-passing functions, `panic` at registration time
becomes `Except.error`, float64 token arithmetic is modelled over `ℚ`, and
byte strings are modelled as `String` (all inputs of interest are ASCII, so
`String.length` coincides with the Go byte length).
-/

namespace Quokka

/-! ### Path matcher (router.go) -/

/-- Trie node: `type node struct { segment string; param, wildcard bool;
children []*node; handlers map[string]Handler }`.  Handlers are identified by
opaque numeric ids; the method map is an association list whose insert
replaces an existing key, matching Go map assignment. -/
inductive Node where
  | mk (segment : String) (param : Bool) (wildcard : Bool)
       (children : List Node) (handlers : List (String × Nat))

def Node.segment : Node → String
  | .mk s _ _ _ _ => s

def Node.param : Node → Bool
  | .mk _ p _ _ _ => p

def Node.wildcard : Node → Bool
  | .mk _ _ w _ _ => w

def Node.children : Node → List Node
  | .mk _ _ _ c _ => c

def Node.handlers : Node → List (String × Nat)
  | .mk _ _ _ _ h => h

/-- The root created by `New()`: empty segment, no flags, no children. -/
def emptyNode : Node := .mk "" false false [] []

/-! Character-list implementations of the Go `strings` helpers used by the
embedded code (`HasPrefix`, `HasSuffix`, `Split`, `Contains`, `ToUpper`,
`ToLower` — the latter two on the ASCII range, which covers every string the
framework feeds them). -/

def charsBeginWith : List Char → List Char → Bool
  | [], _ => true
  | _ :: _, [] => false
  | p :: ps, c :: cs => p = c && charsBeginWith ps cs

/-- Go `strings.HasPrefix(s, pre)`. -/
def strStartsWith (s pre : String) : Bool :=
  charsBeginWith pre.toList s.toList

/-- Go `strings.HasSuffix(s, suf)`. -/
def strEndsWith (s suf : String) : Bool :=
  charsBeginWith suf.toList.reverse s.toList.reverse

def charsContain : List Char → List Char → Bool
  | [], sub => charsBeginWith sub []
  | c :: rest, sub => charsBeginWith sub (c :: rest) || charsContain rest sub

/-- Go `strings.Contains(s, sub)`. -/
def containsSubstr (s sub : String) : Bool :=
  charsContain s.toList sub.toList

def upperChar (c : Char) : Char :=
  if 97 ≤ c.toNat ∧ c.toNat ≤ 122 then Char.ofNat (c.toNat - 32) else c

def lowerChar (c : Char) : Char :=
  if 65 ≤ c.toNat ∧ c.toNat ≤ 90 then Char.ofNat (c.toNat + 32) else c

/-- Go `strings.ToUpper` (ASCII). -/
def strToUpper (s : String) : String := String.mk (s.toList.map upperChar)

/-- Go `strings.ToLower` (ASCII). -/
def strToLower (s : String) : String := String.mk (s.toList.map lowerChar)

def splitOnCharAux (sep : Char) : List Char → List Char → List String
  | [], acc => [String.mk acc.reverse]
  | c :: cs, acc =>
      if c = sep then String.mk acc.reverse :: splitOnCharAux sep cs []
      else splitOnCharAux sep cs (c :: acc)

/-- Go `strings.Split(s, sep)` for a one-character separator. -/
def splitOnChar (sep : Char) (s : String) : List String :=
  splitOnCharAux sep s.toList []

/-- Go map assignment `handlers[m] = h`: replace the binding if present,
otherwise add it. -/
def putMethod : List (String × Nat) → String → Nat → List (String × Nat)
  | [], m, h => [(m, h)]
  | (k, v) :: rest, m, h =>
      if k = m then (m, h) :: rest else (k, v) :: putMethod rest m h

/-- Go map lookup `handlers[m]`. -/
def getMethod (hs : List (String × Nat)) (m : String) : Option Nat :=
  (hs.find? (fun kv => kv.1 == m)).map (fun kv => kv.2)

def dropLeadingSlashes (cs : List Char) : List Char :=
  cs.dropWhile (fun c => c = '/')

/-- Go `strings.Trim(p, "/")`. -/
def trimSlashes (p : String) : String :=
  String.mk ((dropLeadingSlashes (dropLeadingSlashes p.toList).reverse).reverse)

/-- Go `strings.TrimRight(p, "/")`. -/
def trimRightSlashes (p : String) : String :=
  String.mk ((dropLeadingSlashes p.toList.reverse).reverse)

/-- The `splitPath` helper from router.go: trim leading/trailing separators, split on
`/` and drop empty segments. -/
def splitPath (p : String) : List String :=
  let t := trimSlashes p
  if t = "" then []
  else (splitOnChar '/' t).filter (fun s => s ≠ "")

/-- The first loop of `matchChild`: the first child with `ch.segment == seg`
(or, when registering `*`, the wildcard child), together with its position
so the functional update can put the modified child back. -/
def findChild : List Node → String → Option (Nat × Node)
  | [], _ => none
  | ch :: rest, seg =>
      if ch.segment = seg then some (0, ch)
      else if seg = "*" ∧ ch.wildcard then some (0, ch)
      else (findChild rest seg).map (fun p => (p.1 + 1, p.2))

/-- The `matchChild` helper from router.go.  The conflicting-parameter `panic` is
modelled as `Except.error` carrying the panic message. -/
def matchChild (children : List Node) (seg : String) : Except String (Option (Nat × Node)) :=
  match findChild children seg with
  | some p => .ok (some p)
  | none =>
      if strStartsWith seg ":" then
        match children.find? (fun ch => ch.param) with
        | some ch =>
            .error ("quokka: conflicting param name " ++ seg ++ ", existing " ++ ch.segment)
        | none => .ok none
      else .ok none

/-- The trie walk of `handleWithPrefix`: descend (creating nodes as needed),
then set the handler for `method` at the final node.  Go mutates the trie in
place and `panic`s on conflict (aborting startup); the functional embedding
returns the updated trie or the panic message. -/
def insertPath (method : String) (h : Nat) : Node → List String → Except String Node
  | n, [] =>
      .ok (.mk n.segment n.param n.wildcard n.children (putMethod n.handlers method h))
  | n, seg :: rest =>
      match matchChild n.children seg with
      | .error e => .error e
      | .ok (some (i, ch)) =>
          match insertPath method h ch rest with
          | .error e => .error e
          | .ok child =>
              .ok (.mk n.segment n.param n.wildcard (n.children.set i child) n.handlers)
      | .ok none =>
          let fresh : Node := .mk seg (strStartsWith seg ":") (seg = "*") [] []
          match insertPath method h fresh rest with
          | .error e => .error e
          | .ok child =>
              .ok (.mk n.segment n.param n.wildcard (n.children ++ [child]) n.handlers)

/-- Registration via `Handle`/`handleWithPrefix` with an empty prefix: validate the path, then
insert splitting on separators; the method key is upper-cased as in
`n.handlers[strings.ToUpper(method)] = h`.  (The nil-handler check is vacuous
here since handler ids are total values.) -/
def handle (root : Node) (method p : String) (h : Nat) : Except String Node :=
  if p = "" then .error "path must start with /"
  else if p.front ≠ '/' then .error "path must start with /"
  else insertPath (strToUpper method) h root (splitPath p)

def orEmpty : Except String Node → Node
  | .ok n => n
  | .error _ => emptyNode

/-! ### Lookup (`Router.find`) -/

/-- Per-request captured parameters, `map[string]string` with assignment
semantics. -/
abbrev Params := List (String × String)

def getParam (ps : Params) (k : String) : Option String :=
  (ps.find? (fun kv => kv.1 == k)).map (fun kv => kv.2)

def setParam : Params → String → String → Params
  | [], k, v => [(k, v)]
  | (k0, v0) :: rest, k, v =>
      if k0 = k then (k, v) :: rest else (k0, v0) :: setParam rest k v

/-- The inner `for _, ch := range n.children` loop of `find`.  State is
(current `next`, params map, "wildcard consumed the rest" flag, mirroring the
`i = len(parts)-1` assignment).  A literal segment match `break`s at once;
param and wildcard children set `next` without breaking, so a later child can
still override it, exactly as in the source. -/
def scanChildren (p restJoined : String) :
    List Node → Option Node → Params → Bool → Option Node × Params × Bool
  | [], nxt, ps, consumed => (nxt, ps, consumed)
  | ch :: rest, nxt, ps, consumed =>
      if ch.segment = p then (some ch, ps, consumed)
      else
        let st1 : Option Node × Params :=
          if ch.param then (some ch, setParam ps (String.mk (ch.segment.toList.drop 1)) p) else (nxt, ps)
        let st2 : Option Node × Params × Bool :=
          if ch.wildcard then (some ch, setParam st1.2 "*" restJoined, true)
          else (st1.1, st1.2, consumed)
        scanChildren p restJoined rest st2.1 st2.2.1 st2.2.2

/-- The outer segment loop of `find`. -/
def findLoop : Node → List String → Params → Option (Node × Params)
  | n, [], ps => some (n, ps)
  | n, p :: rest, ps =>
      let st := scanChildren p (String.intercalate "/" (p :: rest)) n.children none ps false
      match st.1 with
      | none => none
      | some n1 => if st.2.2 then some (n1, st.2.1) else findLoop n1 rest st.2.1

/-- The repository function `Router.find`. -/
def find (root : Node) (pathStr : String) : Option (Node × Params) :=
  findLoop root (splitPath pathStr) []

def findParam (root : Node) (p name : String) : Option String :=
  (find root p).bind (fun r => getParam r.2 name)

def foundNode (root : Node) (p : String) : Option Node :=
  (find root p).map (fun r => r.1)

/-! ### Dispatch (`Router.ServeHTTP`) -/

/-- Request outcome: a 301 redirect with its target, a matched handler with
captured params, or the two error-handler conditions (404 / 405). -/
inductive Outcome where
  | redirect (target : String)
  | handler (h : Nat) (params : Params)
  | notFound
  | methodNotAllowed
  deriving DecidableEq, Repr

/-- Lines 253–270 of `ServeHTTP`: match the path, then resolve the method
(exact match on the upper-cased method, HEAD→GET fallback, else 405; a nil or
handler-less node is 404). -/
def dispatch (root : Node) (method urlPath : String) : Outcome :=
  match find root urlPath with
  | none => .notFound
  | some (n, params) =>
      if n.handlers = [] then .notFound
      else
        match getMethod n.handlers (strToUpper method) with
        | some h => .handler h params
        | none =>
            if method = "HEAD" then
              match getMethod n.handlers "GET" with
              | some h => .handler h params
              | none => .methodNotAllowed
            else .methodNotAllowed

/-- Full `ServeHTTP` including the trailing-slash redirect branch (lines 242–251):
when enabled and the path ends in `/` (and is longer than one byte) the
router unconditionally redirects to the right-trimmed path, appending the
query string.  There is no backslash or double-separator guard here — that is
exactly what the source does. -/
def serveHTTP (root : Node) (redirectTrailingSlash : Bool)
    (method urlPath rawQuery : String) : Outcome :=
  if redirectTrailingSlash ∧ 1 < urlPath.utf8ByteSize ∧ strEndsWith urlPath "/" then
    let target := trimRightSlashes urlPath
    let target := if rawQuery ≠ "" then target ++ "?" ++ rawQuery else target
    .redirect target
  else dispatch root method urlPath

/-! ### Registration invariant machinery (claim on parameter conflicts) -/

/-- Number of parameter children of a child list. -/
def paramCount (children : List Node) : Nat :=
  (children.filter (fun ch => ch.param)).length

/-- Every node of the trie has at most one parameter child. -/
inductive ParamOk : Node → Prop where
  | node (s : String) (pa w : Bool) (children : List Node) (hs : List (String × Nat)) :
      paramCount children ≤ 1 → (∀ c ∈ children, ParamOk c) →
      ParamOk (.mk s pa w children hs)

/-- The panic message of a failed registration, if any. -/
def errMsg : Except String Node → Option String
  | .error e => some e
  | .ok _ => none

/-! ### Middleware chaining (middleware.go)

`chain` composes `for i := len(mw)-1; i >= 0; i-- { h = mw[i](h) }`, i.e. a
right fold: the first-registered middleware ends up outermost.  To observe
invocation order, handlers are modelled as trace transformers and an
instrumented middleware appends a before-event, runs the next handler, and
appends an after-event. -/

inductive Event where
  | before (name : Nat)
  | run
  | after (name : Nat)
  deriving DecidableEq, Repr

abbrev Trace := List Event

abbrev HandlerFn := Trace → Trace

abbrev Mw := HandlerFn → HandlerFn

/-- The composer `chain(mw, h)` from middleware.go. -/
def chain (mw : List Mw) (h : HandlerFn) : HandlerFn :=
  mw.foldr (fun m acc => m acc) h

/-- Instrumented middleware: acts before and after delegating, tagged by a
name. -/
def tracingMw (name : Nat) : Mw :=
  fun next t => next (t ++ [Event.before name]) ++ [Event.after name]

/-- Instrumented terminal handler. -/
def terminalH : HandlerFn := fun t => t ++ [Event.run]

/-- Per-request assembly as the code performs it: registration stores
`chain(groupMW ++ routeMW, h)` (`Group.Handle` + `handleWithPrefix`), and
`ServeHTTP` wraps that stored handler in `chain(r.mw, ·)`. -/
def assembleHandler (global group route : List Mw) (h : HandlerFn) : HandlerFn :=
  chain global (chain (group ++ route) h)

/-! ### Token-bucket rate limiter (RateLimit middleware)

`float64` token arithmetic is modelled over `ℚ`; `time.Time` instants are
rationals measured in seconds, so `now.Sub(lastSeen).Seconds()` is plain
subtraction. -/

structure Bucket where
  tokens : ℚ
  lastSeen : ℚ
  deriving DecidableEq, Repr

structure RLConfig where
  rate : ℚ
  burst : ℚ
  deriving DecidableEq, Repr

/-- The default normalization at the top of `RateLimit`. -/
def normalizeRL (rate : ℚ) (burst : ℤ) : RLConfig :=
  { rate := if rate ≤ 0 then 10 else rate
    burst := if burst < 1 then 20 else (burst : ℚ) }

abbrev Clients := List (String × Bucket)

def lookupKey : Clients → String → Option Bucket
  | [], _ => none
  | (k0, b0) :: rest, k => if k0 = k then some b0 else lookupKey rest k

def setKey : Clients → String → Bucket → Clients
  | [], k, b => [(k, b)]
  | (k0, b0) :: rest, k, b =>
      if k0 = k then (k, b) :: rest else (k0, b0) :: setKey rest k b

/-- The refill step: `b.tokens += elapsed * rate; if b.tokens > burst
{ b.tokens = burst }`. -/
def refill (cfg : RLConfig) (b : Bucket) (now : ℚ) : ℚ :=
  let elapsed := now - b.lastSeen
  let t := b.tokens + elapsed * cfg.rate
  if t > cfg.burst then cfg.burst else t

structure AllowResult where
  permitted : Bool
  retryAfter : ℤ
  clients : Clients
  deriving Repr

/-- Bucket selection at the top of the request closure: the existing bucket
for the key, or a fresh one pre-filled to `burst` with `lastSeen = now`. -/
def bucketFor (cfg : RLConfig) (clients : Clients) (key : String) (now : ℚ) : Bucket :=
  match lookupKey clients key with
  | some b => b
  | none => { tokens := cfg.burst, lastSeen := now }

/-- The per-request body of the `RateLimit` middleware closure: create a
bucket pre-filled to burst if absent, refill, update `lastSeen`, then either
deny with `Retry-After = ceil((1 - tokens) / rate)` or take one token and
permit. -/
def allow (cfg : RLConfig) (clients : Clients) (key : String) (now : ℚ) : AllowResult :=
  let b := bucketFor cfg clients key now
  let tokens := refill cfg b now
  if tokens < 1 then
    { permitted := false
      retryAfter := ⌈(1 - tokens) / cfg.rate⌉
      clients := setKey clients key { tokens := tokens, lastSeen := now } }
  else
    { permitted := true
      retryAfter := 0
      clients := setKey clients key { tokens := tokens - 1, lastSeen := now } }

/-- Bucket-map well-formedness at time `now`: every stored bucket respects
`0 ≤ tokens ≤ burst` and was last touched no later than `now`. -/
def WFClients (cfg : RLConfig) (now : ℚ) (clients : Clients) : Prop :=
  ∀ k b, lookupKey clients k = some b →
    0 ≤ b.tokens ∧ b.tokens ≤ cfg.burst ∧ b.lastSeen ≤ now

/-! ### Buffering gzip response wrapper

The underlying `http.ResponseWriter` is modelled as a sink recording headers,
an ordered list of body chunks and the first status code written.  Output of
the `gzip.Writer` is abstracted by tagging chunks: a `gz` chunk stands for
the compressed encoding of its payload. -/

inductive Chunk where
  | plain (s : String)
  | gz (s : String)
  deriving DecidableEq, Repr

structure Sink where
  headers : List (String × String)
  chunks : List Chunk
  status : Option Nat
  deriving DecidableEq, Repr

def emptySink : Sink := { headers := [], chunks := [], status := none }

/-- Go `Header().Get`: first value for the key, empty string when absent. -/
def hGet : List (String × String) → String → String
  | [], _ => ""
  | (k0, v) :: rest, k => if k0 = k then v else hGet rest k

/-- Go `Header().Set`: replace every binding of the key with a single value. -/
def hSet (hs : List (String × String)) (k v : String) : List (String × String) :=
  hs.filter (fun kv => kv.1 ≠ k) ++ [(k, v)]

/-- Go `Header().Add`: append a value for the key. -/
def hAdd (hs : List (String × String)) (k v : String) : List (String × String) :=
  hs ++ [(k, v)]

/-- Go `Header().Del`: drop every binding of the key. -/
def hDel (hs : List (String × String)) (k : String) : List (String × String) :=
  hs.filter (fun kv => kv.1 ≠ k)

def hHas : List (String × String) → String → Bool
  | [], _ => false
  | (k0, _) :: rest, k => if k0 = k then true else hHas rest k

/-- Underlying `WriteHeader`: net/http honours only the first status line. -/
def Sink.writeHeader (s : Sink) (code : Nat) : Sink :=
  match s.status with
  | some _ => s
  | none => { s with status := some code }

def Sink.writeChunk (s : Sink) (c : Chunk) : Sink :=
  { s with chunks := s.chunks ++ [c] }

/-- The already-compressed content types skipped by the compressor. -/
def skippedContentTypes : List String :=
  ["image/jpeg", "image/png", "image/gif", "image/webp", "image/avif",
   "video/", "audio/", "application/zip", "application/gzip",
   "application/x-gzip", "application/x-compressed", "application/x-bzip2",
   "application/x-xz", "application/zstd", "application/wasm"]

def shouldSkipContentType (ct : String) : Bool :=
  skippedContentTypes.any (fun skip => strStartsWith (strToLower ct) skip)

structure GzipWriter where
  sink : Sink
  buf : String
  minLength : Nat
  decided : Bool
  compressing : Bool
  statusCode : Nat
  headerWritten : Bool
  deriving DecidableEq, Repr

def GzipWriter.init (sink : Sink) (minLength : Nat) : GzipWriter :=
  { sink := sink, buf := "", minLength := minLength, decided := false
    compressing := false, statusCode := 0, headerWritten := false }

/-- The wrapper method `gzipResponseWriter.WriteHeader`: record the code; body-less status codes
(204, 304, 1xx) decide "no compression" and forward immediately. -/
def GzipWriter.writeHeader (w : GzipWriter) (code : Nat) : GzipWriter :=
  let w := { w with statusCode := code }
  if code = 204 ∨ code = 304 ∨ (100 ≤ code ∧ code < 200) then
    { w with decided := true, compressing := false
             sink := w.sink.writeHeader code, headerWritten := true }
  else w

/-- The wrapper method `gzipResponseWriter.decide`: skip compression for exempt content types,
otherwise drop Content-Length, set Content-Encoding and open the gzip
stream (an invalid level falls back to the default, which the chunk
abstraction absorbs). -/
def GzipWriter.decideNow (w : GzipWriter) : GzipWriter :=
  let w := { w with decided := true }
  if shouldSkipContentType (hGet w.sink.headers "Content-Type") then
    { w with compressing := false }
  else
    { w with compressing := true
             sink := { w.sink with
                        headers := hSet (hDel w.sink.headers "Content-Length")
                                     "Content-Encoding" "gzip" } }

/-- The wrapper method `gzipResponseWriter.flush`. -/
def GzipWriter.flushBuf (w : GzipWriter) : GzipWriter :=
  let w :=
    if ¬ w.headerWritten ∧ w.statusCode ≠ 0 then
      { w with sink := w.sink.writeHeader w.statusCode, headerWritten := true }
    else w
  if w.buf = "" then w
  else if w.compressing then
    { w with sink := w.sink.writeChunk (.gz w.buf), buf := "" }
  else
    { w with sink := w.sink.writeChunk (.plain w.buf), buf := "" }

/-- The wrapper method `gzipResponseWriter.Write`: buffer until the decision point, then stream
through the chosen branch. -/
def GzipWriter.write (w : GzipWriter) (b : String) : GzipWriter :=
  if ¬ w.decided then
    let w := { w with buf := w.buf ++ b }
    if w.minLength ≤ w.buf.length then w.decideNow.flushBuf else w
  else if w.compressing then
    { w with sink := w.sink.writeChunk (.gz b) }
  else
    { w with sink := w.sink.writeChunk (.plain b) }

/-- The wrapper method `gzipResponseWriter.close`: an undecided response is finalized through
the no-compression branch, the status line is forwarded if still pending and
the remaining buffer is written to the underlying sink unmodified. -/
def GzipWriter.close (w : GzipWriter) : GzipWriter :=
  let w := if ¬ w.decided then { w with decided := true, compressing := false } else w
  let w :=
    if ¬ w.headerWritten ∧ w.statusCode ≠ 0 then
      { w with sink := w.sink.writeHeader w.statusCode, headerWritten := true }
    else w
  if w.buf ≠ "" then
    { w with sink := w.sink.writeChunk (.plain w.buf), buf := "" }
  else w

def GzipWriter.runWrites (w : GzipWriter) (writes : List String) : GzipWriter :=
  writes.foldl (fun w b => w.write b) w

/-- A handler run against a plain sink (the middleware's pass-through path):
an optional status-line write followed by body writes. -/
def plainRun (sink : Sink) (code : Option Nat) (writes : List String) : Sink :=
  let sink := match code with
    | some c => sink.writeHeader c
    | none => sink
  writes.foldl (fun s b => s.writeChunk (.plain b)) sink

/-- The `Gzip` middleware around one request: skip wrapping when the client
does not advertise gzip; otherwise add the Vary header, wrap the sink, run
the handler and finalize with `close`. -/
def gzipServe (minLength : Nat) (acceptEncoding : String)
    (code : Option Nat) (writes : List String) (sink : Sink) : Sink :=
  if ¬ containsSubstr acceptEncoding "gzip" then
    plainRun sink code writes
  else
    let sink := { sink with headers := hAdd sink.headers "Vary" "Accept-Encoding" }
    let w := GzipWriter.init sink minLength
    let w := match code with
      | some c => w.writeHeader c
      | none => w
    ((w.runWrites writes).close).sink

/-- True when no chunk of the body is compressed. -/
def noGzChunks (s : Sink) : Bool :=
  s.chunks.all (fun c => match c with | .plain _ => true | .gz _ => false)

/-- Concatenation of the uncompressed chunk payloads, in order. -/
def plainConcat (s : Sink) : String :=
  s.chunks.foldr (fun c acc => match c with | .plain b => b ++ acc | .gz _ => acc) ""

/-- Concatenation of a list of body writes. -/
def joinAll (l : List String) : String :=
  l.foldr (fun a acc => a ++ acc) ""

/-! ### Write-once request context (doc.go `Context`)

The response-writer side of a `Context`: recorded status, response headers
and accumulated body.  JSON encoding is abstracted: the already-encoded
payload bytes stand in for the value (the encode-failure branch of
`Context.JSON` is unreachable for payloads that encode). -/

structure Ctx where
  headers : List (String × String)
  body : String
  status : Nat
  wrote : Bool
  deriving DecidableEq, Repr

/-- The method `Context.JSON` (success path): guard on `wrote`, set the content type,
record and emit the status, write the encoded bytes, mark written. -/
def Ctx.json (c : Ctx) (code : Nat) (encoded : String) : Ctx :=
  if c.wrote then c
  else
    { headers := hSet c.headers "Content-Type" "application/json; charset=utf-8"
      body := c.body ++ encoded
      status := code
      wrote := true }

/-- The method `Context.Text`. -/
def Ctx.text (c : Ctx) (code : Nat) (s : String) : Ctx :=
  if c.wrote then c
  else
    { headers := hSet c.headers "Content-Type" "text/plain; charset=utf-8"
      body := c.body ++ s
      status := code
      wrote := true }

/-- The method `Context.Bytes`. -/
def Ctx.bytes (c : Ctx) (code : Nat) (b : String) (contentType : String) : Ctx :=
  if c.wrote then c
  else
    { headers := if contentType ≠ "" then hSet c.headers "Content-Type" contentType
                 else c.headers
      body := c.body ++ b
      status := code
      wrote := true }

/-- The method `Context.Status`. -/
def Ctx.statusOp (c : Ctx) (code : Nat) : Ctx :=
  if c.wrote then c
  else { c with status := code, wrote := true }

/-- One response-writing call on a context. -/
inductive CtxOp where
  | json (code : Nat) (encoded : String)
  | text (code : Nat) (s : String)
  | bytes (code : Nat) (b : String) (contentType : String)
  | status (code : Nat)
  deriving DecidableEq, Repr

def applyOp (c : Ctx) : CtxOp → Ctx
  | .json code e => c.json code e
  | .text code s => c.text code s
  | .bytes code b ct => c.bytes code b ct
  | .status code => c.statusOp code

/-! ### Concrete fixtures used by the claim theorems -/

/-- Route `/users/:id` registered for GET. -/
def usersRoot : Node := orEmpty (handle emptyNode "GET" "/users/:id" 1)

/-- Route `/static/*` registered for GET. -/
def staticRoot : Node := orEmpty (handle emptyNode "GET" "/static/*" 2)

/-- Route `/users/alpha` registered only for POST — makes `/users` an intermediate
node with no handlers. -/
def interRoot : Node := orEmpty (handle emptyNode "POST" "/users/alpha" 7)

/-- Route `/posts` registered only for POST. -/
def postsRoot : Node := orEmpty (handle emptyNode "POST" "/posts" 3)

/-! ## Theorems -/

theorem chain_append (a b : List Mw) (h : HandlerFn) :
    chain (a ++ b) h = chain a (chain b h) := by
  simp [chain, List.foldr_append]

theorem chain_cons (m : Mw) (mw : List Mw) (h : HandlerFn) :
    chain (m :: mw) h = m (chain mw h) := rfl

theorem chain_traced (ns : List Nat) (t : Trace) :
    chain (ns.map tracingMw) terminalH t =
      t ++ ns.map Event.before ++ [Event.run] ++ ns.reverse.map Event.after := by
  induction ns generalizing t with
  | nil => simp [chain, terminalH]
  | cons n ns ih =>
      simp only [List.map_cons, chain_cons, tracingMw, ih, List.reverse_cons,
        List.map_append, List.map_cons, List.map_nil, List.append_assoc,
        List.cons_append, List.nil_append]

/-- C3.  Middleware invocation order equals registration order with the
first-registered middleware outermost: `chain` applied to tracing middleware
named `0, …, k` produces the trace `before 0, …, before k, run, after k, …,
after 0`; in particular three middleware A, B, C around handler H observe
`A-before, B-before, C-before, H, C-after, B-after, A-after`.  The
per-request assembly (route registration pre-composes group and
route-specific middleware, `ServeHTTP` wraps the stored handler in the
global middleware) equals one chain over `global ++ group ++ route`. -/
theorem c3_middleware_order :
    (chain [tracingMw 0, tracingMw 1, tracingMw 2] terminalH [] =
      [Event.before 0, Event.before 1, Event.before 2, Event.run,
       Event.after 2, Event.after 1, Event.after 0]) ∧
    (∀ (ns : List Nat) (t : Trace),
      chain (ns.map tracingMw) terminalH t =
        t ++ ns.map Event.before ++ [Event.run] ++ ns.reverse.map Event.after) ∧
    (∀ (global group route : List Mw) (h : HandlerFn),
      assembleHandler global group route h = chain (global ++ group ++ route) h) := by
  refine ⟨?_, chain_traced, ?_⟩
  · decide
  · intro global group route h
    simp [assembleHandler, chain_append]

/-- C1 (code-bug evidence).  With trailing-slash redirection enabled, the
dispatcher redirects a request for `//evil.com/` to the scheme-relative
target `//evil.com`, and a request whose path contains a literal backslash
(`/\evil.com/`) to `/\evil.com`; no backslash or doubled-separator guard
exists in `ServeHTTP`.  The same requests, handled as normal match/no-match
(what the claim and the repository's own open-redirect-guard tests demand),
would produce a 404 not-found. -/
theorem c1_trailing_slash_redirect_lacks_guard :
    serveHTTP emptyNode true "GET" "//evil.com/" "" = .redirect "//evil.com" ∧
    strStartsWith "//evil.com" "//" = true ∧
    serveHTTP emptyNode true "GET" "/\\evil.com/" "" = .redirect "/\\evil.com" ∧
    containsSubstr "/\\evil.com/" "\\" = true ∧
    dispatch emptyNode "GET" "//evil.com/" = .notFound ∧
    dispatch emptyNode "GET" "/\\evil.com/" = .notFound := by
  refine ⟨by decide, by decide, by decide, by decide, by decide, by decide⟩

/-- C8 (counterexample).  A response served through the installed gzip
middleware to a client that does not advertise gzip support carries no Vary
header at all: the claim that every response advertises it is false. -/
theorem c8_vary_missing_without_client_support :
    hHas (gzipServe 256 "" (some 200) ["tiny"] emptySink).headers "Vary" = false ∧
    (gzipServe 256 "" (some 200) ["tiny"] emptySink).status = some 200 := by
  refine ⟨by decide, by decide⟩

/-- C10.  The request context is write-once: any second response-writing
call (`JSON`, `Text`, `Bytes` or `Status`) after a first one is a complete
no-op — recorded status, response headers and body are unchanged. -/
theorem c10_context_write_once (c : Ctx) (op1 op2 : CtxOp) :
    applyOp (applyOp c op1) op2 = applyOp c op1 := by
  have hwrote : ∀ (c : Ctx) (op : CtxOp), (applyOp c op).wrote = true := by
    intro c op
    cases op <;>
      simp only [applyOp, Ctx.json, Ctx.text, Ctx.bytes, Ctx.statusOp] <;>
      split <;> simp_all
  have happly : ∀ (c : Ctx) (op : CtxOp), c.wrote = true → applyOp c op = c := by
    intro c op h
    cases op <;>
      simp [applyOp, Ctx.json, Ctx.text, Ctx.bytes, Ctx.statusOp, h]
  exact happly _ op2 (hwrote c op1)

/-- C4 (counterexample).  With only `POST /users/alpha` registered, the path
`/users` matches a trie node (the intermediate `users` node) at which GET is
unregistered, yet the dispatcher produces not-found, not method-not-allowed —
so "a node matches the path but the method is unregistered ⟹ 405" is false
as stated. -/
theorem c4_intermediate_node_counterexample :
    (foundNode interRoot "/users").isSome = true ∧
    ((foundNode interRoot "/users").bind (fun n => getMethod n.handlers "GET")) = none ∧
    dispatch interRoot "GET" "/users" = .notFound ∧
    dispatch interRoot "GET" "/users" ≠ .methodNotAllowed := by
  refine ⟨by decide, by decide, by decide, by decide⟩

/-- C4 (amended).  Method resolution at a matched node that has at least one
registered handler: an exact (upper-cased) method match selects that
handler; a HEAD request falls back to the GET handler when no HEAD handler
exists; otherwise the outcome is method-not-allowed.  Not-found is produced
when no node matches the path, and also when the matched node has no
handlers registered at all; the two outcomes are distinct. -/
theorem c4_method_resolution :
    (∀ (root : Node) (method p : String),
      find root p = none → dispatch root method p = .notFound) ∧
    (∀ (root : Node) (method p : String) (n : Node) (params : Params),
      find root p = some (n, params) → n.handlers = [] →
      dispatch root method p = .notFound) ∧
    (∀ (root : Node) (method p : String) (n : Node) (params : Params) (hid : Nat),
      find root p = some (n, params) →
      getMethod n.handlers (strToUpper method) = some hid →
      dispatch root method p = .handler hid params) ∧
    (∀ (root : Node) (p : String) (n : Node) (params : Params) (gid : Nat),
      find root p = some (n, params) →
      getMethod n.handlers "HEAD" = none → getMethod n.handlers "GET" = some gid →
      dispatch root "HEAD" p = .handler gid params) ∧
    (∀ (root : Node) (method p : String) (n : Node) (params : Params),
      find root p = some (n, params) → n.handlers ≠ [] →
      getMethod n.handlers (strToUpper method) = none →
      (method = "HEAD" → getMethod n.handlers "GET" = none) →
      dispatch root method p = .methodNotAllowed) ∧
    Outcome.methodNotAllowed ≠ Outcome.notFound := by
  refine ⟨?_, ?_, ?_, ?_, ?_, by decide⟩
  · intro root method p hfind
    simp [dispatch, hfind]
  · intro root method p n params hfind hnil
    simp [dispatch, hfind, hnil]
  · intro root method p n params hid hfind hget
    have hne : ¬ n.handlers = [] := by
      intro h0
      rw [h0] at hget
      simp [getMethod] at hget
    simp [dispatch, hfind, hne, hget]
  · intro root p n params gid hfind hhead hget
    have hne : ¬ n.handlers = [] := by
      intro h0
      rw [h0] at hget
      simp [getMethod] at hget
    have hup : strToUpper "HEAD" = "HEAD" := rfl
    simp [dispatch, hfind, hne, hup, hhead, hget]
  · intro root method p n params hfind hne hget hhd
    by_cases hm : method = "HEAD"
    · subst hm
      have hup : strToUpper "HEAD" = "HEAD" := rfl
      have hget2 : getMethod n.handlers "HEAD" = none := by
        rw [← hup]
        exact hget
      simp [dispatch, hfind, hne, hup, hget2, hhd rfl]
    · simp [dispatch, hfind, hne, hget, hm]

/-- Witness for the amended C4: a POST-only path requested with GET yields
405, an unregistered path yields 404, and a GET-only path requested with
HEAD runs the GET handler. -/
theorem c4_method_resolution_witness :
    dispatch postsRoot "GET" "/posts" = .methodNotAllowed ∧
    dispatch emptyNode "GET" "/nope" = .notFound ∧
    dispatch (orEmpty (handle emptyNode "GET" "/items" 4)) "HEAD" "/items" =
      .handler 4 [] := by
  refine ⟨?_, ?_, ?_⟩
  · exact c4_method_resolution.2.2.2.2.1 postsRoot "GET" "/posts"
      (.mk "posts" false false [] [("POST", 3)]) [] rfl (by decide) (by decide)
      (fun hc => absurd hc (by decide))
  · exact c4_method_resolution.1 emptyNode "GET" "/nope" rfl
  · exact c4_method_resolution.2.2.2.1 (orEmpty (handle emptyNode "GET" "/items" 4))
      "/items" (.mk "items" false false [] [("GET", 4)]) [] 4 rfl (by decide) (by decide)

/-- C5.  `splitPath` collapses repeated separators and drops empty segments
(`//a//b` → `["a","b"]`); after registering `/users/:id`, looking up
`/users/42` binds `id ↦ 42`; after registering `/static/*`, looking up
`/static/a/b/c` binds the wildcard capture `a/b/c`; and at each level an
exact literal child is preferred: whenever some child's segment equals the
request segment, the inner scan selects the first such child no matter what
parameter or wildcard children surround it. -/
theorem c5_lookup_semantics :
    splitPath "//a//b" = ["a", "b"] ∧
    findParam usersRoot "/users/42" "id" = some "42" ∧
    findParam staticRoot "/static/a/b/c" "*" = some "a/b/c" ∧
    (∀ (p rj : String) (children : List Node) (n0 : Option Node) (ps : Params)
       (c0 : Bool) (ch : Node),
      children.find? (fun c => c.segment == p) = some ch →
      (scanChildren p rj children n0 ps c0).1 = some ch) := by
  refine ⟨by decide, by decide, by decide, ?_⟩
  intro p rj children
  induction children with
  | nil =>
      intro n0 ps c0 ch h
      simp [List.find?] at h
  | cons hd tl ih =>
      intro n0 ps c0 ch h
      by_cases hseg : hd.segment = p
      · have hch : hd = ch := by
          rw [List.find?] at h
          simp [hseg] at h
          exact h
        subst hch
        simp [scanChildren, hseg]
      · have hpred : (hd.segment == p) = false := by
          simp [hseg]
        rw [List.find?, hpred] at h
        simp only [scanChildren, hseg, if_false]
        exact ih _ _ _ _ h

/-- Witness for C5's literal-preference clause at a concrete child list with
a wildcard sibling placed before the literal child. -/
theorem c5_lookup_semantics_witness :
    (scanChildren "a" "a/b" [Node.mk "*" false true [] [], Node.mk "a" false false [] []]
      none [] false).1 = some (Node.mk "a" false false [] []) := by
  exact c5_lookup_semantics.2.2.2 "a" "a/b"
    [Node.mk "*" false true [] [], Node.mk "a" false false [] []] none [] false
    (Node.mk "a" false false [] []) rfl

theorem paramCount_cons (c : Node) (cs : List Node) :
    paramCount (c :: cs) = paramCount cs + (if c.param then 1 else 0) := by
  simp only [paramCount, List.filter_cons]
  by_cases h : c.param <;> simp [h]

theorem paramCount_append (a b : List Node) :
    paramCount (a ++ b) = paramCount a + paramCount b := by
  simp [paramCount, List.filter_append]

theorem paramCount_set :
    ∀ (cs : List Node) (i : Nat) (c c2 : Node), cs.get? i = some c →
      c2.param = c.param → paramCount (cs.set i c2) = paramCount cs := by
  intro cs
  induction cs with
  | nil =>
      intro i c c2 h _
      simp at h
  | cons hd tl ih =>
      intro i c c2 h hp
      cases i with
      | zero =>
          simp at h
          subst h
          simp only [List.set, paramCount_cons, hp]
      | succ j =>
          have h2 : tl.get? j = some c := h
          simp only [List.set, paramCount_cons, ih j c c2 h2 hp]

theorem paramCount_zero_of_no_param (cs : List Node) (h : ∀ c ∈ cs, ¬ c.param = true) :
    paramCount cs = 0 := by
  simp only [paramCount, List.length_eq_zero]
  exact List.filter_eq_nil_iff.mpr h

theorem findChild_get :
    ∀ (cs : List Node) (seg : String) (i : Nat) (ch : Node),
      findChild cs seg = some (i, ch) → cs.get? i = some ch := by
  intro cs
  induction cs with
  | nil =>
      intro seg i ch h
      simp [findChild] at h
  | cons hd tl ih =>
      intro seg i ch h
      rw [findChild] at h
      by_cases h1 : hd.segment = seg
      · rw [if_pos h1] at h
        simp at h
        obtain ⟨hi, hch⟩ := h
        subst hi
        subst hch
        rfl
      · rw [if_neg h1] at h
        by_cases h2 : seg = "*" ∧ hd.wildcard
        · rw [if_pos h2] at h
          simp at h
          obtain ⟨hi, hch⟩ := h
          subst hi
          subst hch
          rfl
        · rw [if_neg h2] at h
          cases hf : findChild tl seg with
          | none =>
              rw [hf] at h
              simp at h
          | some pr =>
              rw [hf] at h
              simp at h
              obtain ⟨hi, hch⟩ := h
              subst hi
              subst hch
              simpa using ih seg pr.1 pr.2 (by rw [hf])

theorem matchChild_some (cs : List Node) (seg : String) (i : Nat) (ch : Node)
    (h : matchChild cs seg = .ok (some (i, ch))) : findChild cs seg = some (i, ch) := by
  rw [matchChild] at h
  split at h
  · rename_i p hf
    simp at h
    rw [hf, h]
  · rename_i hf
    split at h
    · split at h
      · simp at h
      · simp at h
    · simp at h

theorem matchChild_none (cs : List Node) (seg : String)
    (h : matchChild cs seg = .ok none) (hs : strStartsWith seg ":" = true) :
    cs.find? (fun ch => ch.param) = none := by
  rw [matchChild] at h
  split at h
  · rename_i p hf
    simp at h
  · rename_i hf
    split at h
    · split at h
      · rename_i c hp
        simp at h
      · rename_i hp
        exact hp
    · rename_i hns
      exact absurd hs hns

theorem insertPath_fields (m : String) (hid : Nat) :
    ∀ (segs : List String) (n n2 : Node), insertPath m hid n segs = .ok n2 →
      n2.segment = n.segment ∧ n2.param = n.param ∧ n2.wildcard = n.wildcard := by
  intro segs
  induction segs with
  | nil =>
      intro n n2 h
      simp [insertPath] at h
      subst h
      simp [Node.segment, Node.param, Node.wildcard]
  | cons seg rest _ =>
      intro n n2 h
      simp only [insertPath] at h
      split at h
      · simp at h
      · split at h
        · simp at h
        · simp at h
          subst h
          simp [Node.segment, Node.param, Node.wildcard]
      · split at h
        · simp at h
        · simp at h
          subst h
          simp [Node.segment, Node.param, Node.wildcard]

theorem ParamOk_inv (s : String) (pa w : Bool) (cs : List Node) (hs : List (String × Nat))
    (h : ParamOk (.mk s pa w cs hs)) :
    paramCount cs ≤ 1 ∧ ∀ c ∈ cs, ParamOk c := by
  cases h with
  | node _ _ _ _ _ hcount hall => exact ⟨hcount, hall⟩

theorem insertPath_ParamOk (m : String) (hid : Nat) :
    ∀ (segs : List String) (n n2 : Node),
      insertPath m hid n segs = .ok n2 → ParamOk n → ParamOk n2 := by
  intro segs
  induction segs with
  | nil =>
      intro n n2 hins hok
      cases n with
      | mk s pa w cs hs =>
          simp [insertPath] at hins
          subst hins
          obtain ⟨hcount, hall⟩ := ParamOk_inv s pa w cs hs hok
          exact .node _ _ _ _ _ hcount hall
  | cons seg rest ih =>
      intro n n2 hins hok
      cases n with
      | mk s pa w cs hs =>
      obtain ⟨hcount, hall⟩ := ParamOk_inv s pa w cs hs hok
      simp only [insertPath, Node.children, Node.segment, Node.param, Node.wildcard,
        Node.handlers] at hins
      split at hins
      · simp at hins
      · rename_i i ch hmc
        split at hins
        · simp at hins
        · rename_i child2 hrec
          simp at hins
          subst hins
          have hfc := matchChild_some cs seg i ch hmc
          have hget := findChild_get cs seg i ch hfc
          have hmem : ch ∈ cs := List.get?_mem hget
          have hok2 := ih ch child2 hrec (hall ch hmem)
          have hfields := insertPath_fields m hid rest ch child2 hrec
          refine .node _ _ _ _ _ ?_ ?_
          · rw [paramCount_set cs i ch child2 hget hfields.2.1]
            exact hcount
          · intro c hc
            rcases List.mem_or_eq_of_mem_set hc with hmemc | heq
            · exact hall c hmemc
            · subst heq
              exact hok2
      · rename_i hmc
        split at hins
        · simp at hins
        · rename_i child2 hrec
          simp at hins
          subst hins
          have hfresh : ParamOk (.mk seg (strStartsWith seg ":") (seg = "*") [] []) := by
            refine .node _ _ _ _ _ (by simp [paramCount]) ?_
            intro c hc
            exact absurd hc (List.not_mem_nil c)
          have hok2 := ih _ child2 hrec hfresh
          have hfields := insertPath_fields m hid rest _ child2 hrec
          refine .node _ _ _ _ _ ?_ ?_
          · rw [paramCount_append]
            by_cases hp : strStartsWith seg ":" = true
            · have hnone := matchChild_none cs seg hmc hp
              have hzero : paramCount cs = 0 :=
                paramCount_zero_of_no_param cs (List.find?_eq_none.mp hnone)
              have hone : paramCount [child2] ≤ 1 := by
                by_cases hc2 : child2.param <;> simp [paramCount, List.filter_cons, hc2]
              omega
            · have hcp : child2.param = false := by
                rw [hfields.2.1]
                simp only [Node.param]
                exact Bool.eq_false_iff.mpr hp
              have hzero2 : paramCount [child2] = 0 := by
                simp [paramCount, List.filter, hcp]
              omega
          · intro c hc
            rcases List.mem_append.mp hc with hmemc | hc2
            · exact hall c hmemc
            · simp at hc2
              subst hc2
              exact hok2

/-- C6.  Registering `/users/:userId` when `/users/:id` already exists fails
at registration time (the panic in `matchChild`) with an error naming both
the conflicting and the existing parameter — no route is added, so nothing
can be deferred to a per-request HTTP error — and every registration that
does succeed preserves the invariant that each trie node has at most one
parameter child. -/
theorem c6_param_conflict :
    errMsg (handle usersRoot "GET" "/users/:userId" 2) =
      some "quokka: conflicting param name :userId, existing :id" ∧
    containsSubstr "quokka: conflicting param name :userId, existing :id" ":userId" = true ∧
    containsSubstr "quokka: conflicting param name :userId, existing :id" ":id" = true ∧
    ParamOk emptyNode ∧
    (∀ (root : Node) (method p : String) (hid : Nat) (root2 : Node),
      handle root method p hid = .ok root2 → ParamOk root → ParamOk root2) := by
  refine ⟨by decide, by decide, by decide, ?_, ?_⟩
  · exact .node _ _ _ _ _ (by decide) (fun c hc => absurd hc (List.not_mem_nil c))
  · intro root method p hid root2 hreg hok
    unfold handle at hreg
    by_cases h1 : p = ""
    · rw [if_pos h1] at hreg
      simp at hreg
    · rw [if_neg h1] at hreg
      by_cases h2 : p.front ≠ '/'
      · rw [if_pos h2] at hreg
        simp at hreg
      · rw [if_neg h2] at hreg
        exact insertPath_ParamOk (strToUpper method) hid (splitPath p) root root2 hreg hok

/-- Witness for C6: the preservation clause applied to the concrete
registration of `/users/:id` on the fresh router. -/
theorem c6_param_conflict_witness : ParamOk usersRoot := by
  refine c6_param_conflict.2.2.2.2 emptyNode "GET" "/users/:id" 1 usersRoot rfl ?_
  exact .node _ _ _ _ _ (by decide) (fun c hc => absurd hc (List.not_mem_nil c))

theorem lookupKey_setKey :
    ∀ (m : Clients) (k : String) (v : Bucket) (k2 : String),
      lookupKey (setKey m k v) k2 = if k2 = k then some v else lookupKey m k2 := by
  intro m
  induction m with
  | nil =>
      intro k v k2
      by_cases h : k2 = k
      · subst h
        simp [setKey, lookupKey]
      · simp only [setKey, lookupKey, if_neg h]
        rw [if_neg (fun hc => h hc.symm)]
  | cons kv rest ih =>
      intro k v k2
      obtain ⟨k0, b0⟩ := kv
      by_cases h0 : k0 = k
      · subst h0
        by_cases h2 : k2 = k0
        · subst h2
          simp [setKey, lookupKey]
        · have h2s : ¬k0 = k2 := fun hc => h2 hc.symm
          simp [setKey, lookupKey, h2, h2s]
      · by_cases h2 : k2 = k0
        · subst h2
          simp [setKey, lookupKey, h0]
        · have h2s : ¬k0 = k2 := fun hc => h2 hc.symm
          simp [setKey, lookupKey, h0, h2, h2s, ih k v k2]

theorem normalizeRL_sane (rate : ℚ) (burst : ℤ) :
    0 < (normalizeRL rate burst).rate ∧ 1 ≤ (normalizeRL rate burst).burst := by
  constructor
  · show 0 < (if rate ≤ 0 then (10 : ℚ) else rate)
    split_ifs with h
    · norm_num
    · exact lt_of_not_le h
  · show (1 : ℚ) ≤ (if burst < 1 then (20 : ℚ) else (burst : ℚ))
    split_ifs with h
    · norm_num
    · exact_mod_cast not_lt.mp h

theorem refill_le_burst (cfg : RLConfig) (b : Bucket) (now : ℚ) :
    refill cfg b now ≤ cfg.burst := by
  simp only [refill]
  split
  · exact le_refl _
  · linarith [not_lt.mp (by assumption)]

theorem refill_nonneg (cfg : RLConfig) (b : Bucket) (now : ℚ)
    (h0 : 0 ≤ b.tokens) (hr : 0 ≤ cfg.rate) (hl : b.lastSeen ≤ now)
    (hb : 0 ≤ cfg.burst) : 0 ≤ refill cfg b now := by
  simp only [refill]
  split
  · exact hb
  · have := mul_nonneg (sub_nonneg.mpr hl) hr
    linarith

/-- C9.  The bucket invariant `0 ≤ tokens ≤ burst` (together with
`lastSeen ≤ now`) holds for the empty client map and is preserved by every
`allow` call made at a non-decreasing clock, for any configuration with
positive rate and `burst ≥ 1`: creation pre-fills to burst, the refill is
capped at burst, and the decrement fires only when at least one token is
available. -/
theorem c9_bucket_invariant :
    (∀ (cfg : RLConfig) (now : ℚ), WFClients cfg now []) ∧
    (∀ (cfg : RLConfig) (clients : Clients) (key : String) (now now2 : ℚ),
      0 < cfg.rate → 1 ≤ cfg.burst → WFClients cfg now clients → now ≤ now2 →
      WFClients cfg now2 (allow cfg clients key now2).clients) := by
  constructor
  · intro cfg now k b h
    simp [lookupKey] at h
  · intro cfg clients key now now2 hrate hburst hwf hle
    have hbase : 0 ≤ (bucketFor cfg clients key now2).tokens ∧
        (bucketFor cfg clients key now2).tokens ≤ cfg.burst ∧
        (bucketFor cfg clients key now2).lastSeen ≤ now2 := by
      simp only [bucketFor]
      split
      · rename_i b hb
        obtain ⟨h1, h2, h3⟩ := hwf key b hb
        exact ⟨h1, h2, le_trans h3 hle⟩
      · exact ⟨by linarith, le_refl _, le_refl _⟩
    have hre0 : 0 ≤ refill cfg (bucketFor cfg clients key now2) now2 :=
      refill_nonneg _ _ _ hbase.1 (le_of_lt hrate) hbase.2.2 (by linarith)
    have hre1 : refill cfg (bucketFor cfg clients key now2) now2 ≤ cfg.burst :=
      refill_le_burst _ _ _
    simp only [allow]
    split
    · intro k b2 hlook
      rw [lookupKey_setKey] at hlook
      by_cases hk : k = key
      · rw [if_pos hk] at hlook
        have hb2 := (Option.some.inj hlook).symm
        subst hb2
        exact ⟨hre0, hre1, le_refl _⟩
      · rw [if_neg hk] at hlook
        obtain ⟨h1, h2, h3⟩ := hwf k b2 hlook
        exact ⟨h1, h2, le_trans h3 hle⟩
    · rename_i hnlt
      intro k b2 hlook
      rw [lookupKey_setKey] at hlook
      by_cases hk : k = key
      · rw [if_pos hk] at hlook
        have hb2 := (Option.some.inj hlook).symm
        subst hb2
        have h1le : (1 : ℚ) ≤ refill cfg (bucketFor cfg clients key now2) now2 :=
          not_lt.mp hnlt
        refine ⟨by simp; linarith, by simp; linarith, le_refl _⟩
      · rw [if_neg hk] at hlook
        obtain ⟨h1, h2, h3⟩ := hwf k b2 hlook
        exact ⟨h1, h2, le_trans h3 hle⟩

/-- Witness for C9 at a concrete configuration, client map and clock. -/
theorem c9_bucket_invariant_witness :
    WFClients ⟨1, 2⟩ 0 (allow ⟨1, 2⟩ [] "k" 0).clients := by
  exact c9_bucket_invariant.2 ⟨1, 2⟩ [] "k" 0 0 (by norm_num) (by norm_num)
    (c9_bucket_invariant.1 ⟨1, 2⟩ 0) (le_refl 0)

/-- C2.  One `allow(clientKey, now)` call behaves exactly as specified: a
missing bucket is created pre-filled to `burst` (so, with `burst ≥ 1`, a
first request from a fresh key is always permitted); the stored bucket after
the call has `lastSeen = now` and refilled tokens capped at `burst`; the call
is denied exactly when the refilled tokens fall below 1, in which case
`retryAfterSeconds = ⌈(1 - tokens)/rate⌉ ≥ 1`; a permitted call decrements
by exactly 1.  With `rate = 1, burst = 2`, the first two requests from one
key are permitted, a third within the same sub-second window is denied with
`retryAfterSeconds ≥ 1`, and a different key is unaffected. -/
theorem c2_token_bucket :
    (∀ (cfg : RLConfig) (clients : Clients) (key : String) (now : ℚ),
      lookupKey clients key = none →
      bucketFor cfg clients key now = { tokens := cfg.burst, lastSeen := now } ∧
      (1 ≤ cfg.burst → (allow cfg clients key now).permitted = true)) ∧
    (∀ (cfg : RLConfig) (clients : Clients) (key : String) (now : ℚ),
      ∃ b2 : Bucket, lookupKey (allow cfg clients key now).clients key = some b2 ∧
        b2.lastSeen = now ∧ b2.tokens ≤ cfg.burst ∧
        ((allow cfg clients key now).permitted = true →
          b2.tokens = refill cfg (bucketFor cfg clients key now) now - 1)) ∧
    (∀ (cfg : RLConfig) (clients : Clients) (key : String) (now : ℚ),
      0 < cfg.rate →
      ((allow cfg clients key now).permitted = false ↔
        refill cfg (bucketFor cfg clients key now) now < 1) ∧
      ((allow cfg clients key now).permitted = false →
        (allow cfg clients key now).retryAfter =
          ⌈(1 - refill cfg (bucketFor cfg clients key now) now) / cfg.rate⌉ ∧
        1 ≤ (allow cfg clients key now).retryAfter)) ∧
    (∀ t0 t1 t2 : ℚ, t0 ≤ t1 → t1 ≤ t2 → t2 - t0 < 1 →
      (allow ⟨1, 2⟩ [] "a" t0).permitted = true ∧
      (allow ⟨1, 2⟩ (allow ⟨1, 2⟩ [] "a" t0).clients "a" t1).permitted = true ∧
      (allow ⟨1, 2⟩ (allow ⟨1, 2⟩ (allow ⟨1, 2⟩ [] "a" t0).clients "a" t1).clients
        "a" t2).permitted = false ∧
      1 ≤ (allow ⟨1, 2⟩ (allow ⟨1, 2⟩ (allow ⟨1, 2⟩ [] "a" t0).clients "a" t1).clients
        "a" t2).retryAfter ∧
      (allow ⟨1, 2⟩
        (allow ⟨1, 2⟩ (allow ⟨1, 2⟩ (allow ⟨1, 2⟩ [] "a" t0).clients "a" t1).clients
          "a" t2).clients "b" t2).permitted = true) := by
  have hfresh : ∀ (cfg : RLConfig) (clients : Clients) (key : String) (now : ℚ),
      lookupKey clients key = none → 1 ≤ cfg.burst →
      (allow cfg clients key now).permitted = true := by
    intro cfg clients key now hnone hb
    have hbf : bucketFor cfg clients key now = ⟨cfg.burst, now⟩ := by
      simp [bucketFor, hnone]
    have hre : refill cfg ⟨cfg.burst, now⟩ now = cfg.burst := by
      simp [refill]
    simp only [allow, hbf, hre]
    rw [if_neg (by linarith)]
  refine ⟨?_, ?_, ?_, ?_⟩
  · intro cfg clients key now hnone
    refine ⟨by simp [bucketFor, hnone], fun hb => hfresh cfg clients key now hnone hb⟩
  · intro cfg clients key now
    simp only [allow]
    split
    · rename_i hlt
      refine ⟨⟨refill cfg (bucketFor cfg clients key now) now, now⟩, ?_, rfl,
        refill_le_burst _ _ _, ?_⟩
      · rw [lookupKey_setKey]
        simp
      · intro hp
        exact absurd hp (by simp)
    · rename_i hnlt
      refine ⟨⟨refill cfg (bucketFor cfg clients key now) now - 1, now⟩, ?_, rfl, ?_, ?_⟩
      · rw [lookupKey_setKey]
        simp
      · have := refill_le_burst cfg (bucketFor cfg clients key now) now
        show refill cfg (bucketFor cfg clients key now) now - 1 ≤ cfg.burst
        linarith
      · intro _
        rfl
  · intro cfg clients key now hrate
    simp only [allow]
    split
    · rename_i hlt
      refine ⟨⟨fun _ => hlt, fun _ => rfl⟩, fun _ => ⟨rfl, ?_⟩⟩
      have hpos : 0 < (1 - refill cfg (bucketFor cfg clients key now) now) / cfg.rate :=
        div_pos (by linarith) hrate
      have hceil := Int.ceil_pos.mpr hpos
      show 1 ≤ ⌈(1 - refill cfg (bucketFor cfg clients key now) now) / cfg.rate⌉
      omega
    · rename_i hnlt
      exact ⟨⟨fun hp => absurd hp (by simp), fun hlt => absurd hlt hnlt⟩,
        fun hp => absurd hp (by simp)⟩
  · intro t0 t1 t2 h01 h12 hsub
    have e1 : allow ⟨1, 2⟩ [] "a" t0 =
        { permitted := true, retryAfter := 0, clients := [("a", ⟨1, t0⟩)] } := by
      have hb1 : bucketFor ⟨1, 2⟩ [] "a" t0 = ⟨2, t0⟩ := by
        simp [bucketFor, lookupKey]
      have hr1 : refill ⟨1, 2⟩ ⟨2, t0⟩ t0 = 2 := by
        simp [refill]
      simp only [allow, hb1, hr1]
      rw [if_neg (by norm_num)]
      norm_num [setKey]
    have e2 : allow ⟨1, 2⟩ [("a", ⟨1, t0⟩)] "a" t1 =
        { permitted := true, retryAfter := 0, clients := [("a", ⟨t1 - t0, t1⟩)] } := by
      have hb2 : bucketFor ⟨1, 2⟩ [("a", ⟨1, t0⟩)] "a" t1 = ⟨1, t0⟩ := by
        simp [bucketFor, lookupKey]
      have hr2 : refill ⟨1, 2⟩ ⟨1, t0⟩ t1 = 1 + (t1 - t0) := by
        show (if (1 : ℚ) + (t1 - t0) * 1 > 2 then (2 : ℚ) else 1 + (t1 - t0) * 1) =
          1 + (t1 - t0)
        rw [mul_one, if_neg (by linarith)]
      simp only [allow, hb2, hr2]
      rw [if_neg (by linarith)]
      have harith : (1 : ℚ) + (t1 - t0) - 1 = t1 - t0 := by ring
      rw [harith]
      simp [setKey]
    have e3p : (allow ⟨1, 2⟩ [("a", ⟨t1 - t0, t1⟩)] "a" t2).permitted = false ∧
        1 ≤ (allow ⟨1, 2⟩ [("a", ⟨t1 - t0, t1⟩)] "a" t2).retryAfter ∧
        (allow ⟨1, 2⟩ [("a", ⟨t1 - t0, t1⟩)] "a" t2).clients =
          [("a", ⟨t1 - t0 + (t2 - t1), t2⟩)] := by
      have hb3 : bucketFor ⟨1, 2⟩ [("a", ⟨t1 - t0, t1⟩)] "a" t2 = ⟨t1 - t0, t1⟩ := by
        simp [bucketFor, lookupKey]
      have hr3 : refill ⟨1, 2⟩ ⟨t1 - t0, t1⟩ t2 = t1 - t0 + (t2 - t1) := by
        show (if t1 - t0 + (t2 - t1) * 1 > 2 then (2 : ℚ) else t1 - t0 + (t2 - t1) * 1) =
          t1 - t0 + (t2 - t1)
        rw [mul_one, if_neg (by linarith)]
      have hlt3 : t1 - t0 + (t2 - t1) < 1 := by linarith
      simp only [allow, hb3, hr3]
      rw [if_pos hlt3]
      refine ⟨rfl, ?_, by simp [setKey]⟩
      have hpos : (0 : ℚ) < (1 - (t1 - t0 + (t2 - t1))) / (1 : ℚ) := by
        rw [div_one]
        linarith
      have hceil := Int.ceil_pos.mpr hpos
      show 1 ≤ ⌈(1 - (t1 - t0 + (t2 - t1))) / (1 : ℚ)⌉
      omega
    have e4 : (allow ⟨1, 2⟩ [("a", ⟨t1 - t0 + (t2 - t1), t2⟩)] "b" t2).permitted = true := by
      apply hfresh
      · simp [lookupKey]
      · norm_num
    refine ⟨by rw [e1], by rw [e1, e2], ?_, ?_, ?_⟩
    · rw [e1, e2]
      exact e3p.1
    · rw [e1, e2]
      exact e3p.2.1
    · rw [e1, e2, e3p.2.2]
      exact e4

/-- Witness for C2: the denial scenario at concrete times 0, 0, ½ and the
fresh-bucket clause at a concrete configuration. -/
theorem c2_token_bucket_witness :
    (allow ⟨1, 2⟩ [] "a" 0).permitted = true ∧
    (allow ⟨1, 2⟩ (allow ⟨1, 2⟩ [] "a" 0).clients "a" 0).permitted = true ∧
    (allow ⟨1, 2⟩ (allow ⟨1, 2⟩ (allow ⟨1, 2⟩ [] "a" 0).clients "a" 0).clients
      "a" (1/2)).permitted = false ∧
    1 ≤ (allow ⟨1, 2⟩ (allow ⟨1, 2⟩ (allow ⟨1, 2⟩ [] "a" 0).clients "a" 0).clients
      "a" (1/2)).retryAfter := by
  have h := c2_token_bucket.2.2.2 0 0 (1/2) (le_refl 0) (by norm_num) (by norm_num)
  exact ⟨h.1, h.2.1, h.2.2.1, h.2.2.2.1⟩

theorem joinAll_cons (a : String) (l : List String) :
    joinAll (a :: l) = a ++ joinAll l := rfl

theorem writeHeader_headers (s : Sink) (c : Nat) : (s.writeHeader c).headers = s.headers := by
  unfold Sink.writeHeader
  split <;> rfl

theorem writeHeader_chunks (s : Sink) (c : Nat) : (s.writeHeader c).chunks = s.chunks := by
  unfold Sink.writeHeader
  split <;> rfl

/-- Finalization via `close` never touches headers. -/
theorem close_headers (w : GzipWriter) :
    (GzipWriter.close w).sink.headers = w.sink.headers := by
  by_cases h1 : w.decided <;> by_cases h2 : w.headerWritten <;>
    by_cases h3 : w.statusCode = 0 <;> by_cases h4 : w.buf = "" <;>
    simp [GzipWriter.close, h1, h2, h3, h4, Sink.writeChunk,
      writeHeader_headers, writeHeader_chunks]

/-- Finalization via `close` appends at most the remaining buffer as one uncompressed
chunk. -/
theorem close_chunks (w : GzipWriter) :
    (GzipWriter.close w).sink.chunks =
      w.sink.chunks ++ (if w.buf = "" then [] else [Chunk.plain w.buf]) := by
  by_cases h1 : w.decided <;> by_cases h2 : w.headerWritten <;>
    by_cases h3 : w.statusCode = 0 <;> by_cases h4 : w.buf = "" <;>
    simp [GzipWriter.close, h1, h2, h3, h4, Sink.writeChunk,
      writeHeader_headers, writeHeader_chunks]

/-- The undecided wrapper buffers writes verbatim while the running total
stays below `minLength`. -/
theorem runWrites_undecided :
    ∀ (writes : List String) (w : GzipWriter), w.decided = false →
      w.buf.length + (joinAll writes).length < w.minLength →
      GzipWriter.runWrites w writes = { w with buf := w.buf ++ joinAll writes } := by
  intro writes
  induction writes with
  | nil =>
      intro w _ _
      have hrfl : GzipWriter.runWrites w [] = w := rfl
      rw [hrfl]
      show w = { w with buf := w.buf ++ joinAll [] }
      have hj : joinAll [] = "" := rfl
      rw [hj, String.append_empty]
  | cons b rest ih =>
      intro w hdec hlen
      have hstep : w.write b = { w with buf := w.buf ++ b } := by
        simp only [GzipWriter.write, hdec, Bool.false_eq_true, not_false_eq_true, if_true]
        rw [if_neg]
        simp only [String.length_append, joinAll_cons] at hlen ⊢
        have h2 := (joinAll rest).length.zero_le
        omega
      have hrun : GzipWriter.runWrites w (b :: rest) =
          GzipWriter.runWrites (w.write b) rest := rfl
      rw [hrun, hstep, ih]
      · simp [String.append_assoc, joinAll_cons]
      · exact hdec
      · simp only [String.length_append, joinAll_cons] at hlen ⊢
        omega

/-- After a no-body status decision (204/304/1xx), writes pass straight
through uncompressed. -/
theorem runWrites_decided :
    ∀ (writes : List String) (w : GzipWriter), w.decided = true →
      w.compressing = false →
      GzipWriter.runWrites w writes =
        { w with sink := { w.sink with chunks := w.sink.chunks ++ writes.map Chunk.plain } } := by
  intro writes
  induction writes with
  | nil =>
      intro w _ _
      have hrfl : GzipWriter.runWrites w [] = w := rfl
      rw [hrfl]
      show w = { w with sink := { w.sink with chunks := w.sink.chunks ++ ([] : List Chunk) } }
      rw [List.append_nil]
  | cons b rest ih =>
      intro w hdec hcomp
      have hstep : w.write b = { w with sink := w.sink.writeChunk (.plain b) } := by
        simp [GzipWriter.write, hdec, hcomp]
      have hrun : GzipWriter.runWrites w (b :: rest) =
          GzipWriter.runWrites (w.write b) rest := rfl
      rw [hrun, hstep,
        ih { w with sink := w.sink.writeChunk (Chunk.plain b) } hdec hcomp]
      simp [Sink.writeChunk]

theorem chunksFoldr_map_plain (writes : List String) :
    (writes.map Chunk.plain).foldr
      (fun c acc => match c with | .plain b => b ++ acc | .gz _ => acc) "" =
      joinAll writes := by
  induction writes with
  | nil => rfl
  | cons b rest ih => simp [joinAll_cons, ih]

theorem noGz_map_plain (writes : List String) :
    (writes.map Chunk.plain).all
      (fun c => match c with | .plain _ => true | .gz _ => false) = true := by
  induction writes with
  | nil => rfl
  | cons b rest ih => simp [ih]

theorem foldl_writeChunk (writes : List String) :
    ∀ s : Sink, writes.foldl (fun s b => s.writeChunk (.plain b)) s =
      { s with chunks := s.chunks ++ writes.map Chunk.plain } := by
  induction writes with
  | nil =>
      intro s
      simp
  | cons b rest ih =>
      intro s
      rw [List.foldl_cons, ih (s.writeChunk (.plain b))]
      simp [Sink.writeChunk, List.append_assoc]

theorem gw_writeHeader_sink_headers (w : GzipWriter) (c : Nat) :
    (GzipWriter.writeHeader w c).sink.headers = w.sink.headers := by
  unfold GzipWriter.writeHeader
  split_ifs <;> simp [writeHeader_headers]

theorem gw_writeHeader_sink_chunks (w : GzipWriter) (c : Nat) :
    (GzipWriter.writeHeader w c).sink.chunks = w.sink.chunks := by
  unfold GzipWriter.writeHeader
  split_ifs <;> simp [writeHeader_chunks]

theorem gw_writeHeader_buf (w : GzipWriter) (c : Nat) :
    (GzipWriter.writeHeader w c).buf = w.buf := by
  unfold GzipWriter.writeHeader
  split_ifs <;> simp

theorem gw_writeHeader_minLength (w : GzipWriter) (c : Nat) :
    (GzipWriter.writeHeader w c).minLength = w.minLength := by
  unfold GzipWriter.writeHeader
  split_ifs <;> simp

theorem gw_writeHeader_compressing (w : GzipWriter) (c : Nat)
    (h : w.compressing = false) :
    (GzipWriter.writeHeader w c).compressing = false := by
  unfold GzipWriter.writeHeader
  split_ifs <;> simp [h]

/-- C7.  A response whose total written body stays below `MinLength` is
never compressed, whatever the client advertised: the final sink carries no
Content-Encoding header, every body chunk is uncompressed, and the
concatenated output equals the concatenated handler writes — the
still-undecided buffer is flushed through `close`'s no-compression branch
unmodified. -/
theorem c7_small_response_uncompressed (minLength : Nat) (accept : String)
    (code : Option Nat) (writes : List String)
    (hlen : (joinAll writes).length < minLength) :
    hHas (gzipServe minLength accept code writes emptySink).headers "Content-Encoding" = false ∧
    noGzChunks (gzipServe minLength accept code writes emptySink) = true ∧
    plainConcat (gzipServe minLength accept code writes emptySink) = joinAll writes := by
  unfold gzipServe
  by_cases hacc : containsSubstr accept "gzip" = true
  · rw [if_neg (by simp [hacc])]
    -- the writer state after the optional status write
    have hmain : ∀ w1 : GzipWriter, w1.sink.headers = [("Vary", "Accept-Encoding")] →
        w1.sink.chunks = [] → w1.buf = "" →
        w1.minLength = minLength → w1.compressing = false →
        (w1.decided = false ∨ w1.decided = true) →
        hHas ((GzipWriter.runWrites w1 writes).close).sink.headers "Content-Encoding" = false ∧
        noGzChunks ((GzipWriter.runWrites w1 writes).close).sink = true ∧
        plainConcat ((GzipWriter.runWrites w1 writes).close).sink = joinAll writes := by
      intro w1 hh1 hh2 hb hm hc hd
      rcases hd with hd | hd
      · have hrw := runWrites_undecided writes w1 hd (by
          rw [hb, hm]
          simpa using hlen)
        rw [hrw, close_headers]
        simp only [noGzChunks, plainConcat]
        rw [close_chunks]
        simp only [hh1, hh2, hb, String.empty_append, List.nil_append]
        refine ⟨by decide, ?_, ?_⟩
        · by_cases hj : joinAll writes = "" <;> simp [hj]
        · by_cases hj : joinAll writes = ""
          · simp [hj]
          · simp [hj]
      · have hrw := runWrites_decided writes w1 hd hc
        rw [hrw, close_headers]
        simp only [noGzChunks, plainConcat]
        rw [close_chunks]
        simp only [hh1, hh2, hb, List.nil_append]
        refine ⟨by decide, ?_, ?_⟩
        · simp [List.all_append, noGz_map_plain]
        · simp [chunksFoldr_map_plain]
    cases code with
    | none =>
        exact hmain
          (GzipWriter.init
            { emptySink with headers := hAdd emptySink.headers "Vary" "Accept-Encoding" }
            minLength) rfl rfl rfl rfl rfl (Or.inl rfl)
    | some c =>
        refine hmain ((GzipWriter.init
            { emptySink with headers := hAdd emptySink.headers "Vary" "Accept-Encoding" }
            minLength).writeHeader c) ?_ ?_ ?_ ?_ ?_ (Or.symm (Bool.eq_false_or_eq_true _))
        · rw [gw_writeHeader_sink_headers]
          rfl
        · rw [gw_writeHeader_sink_chunks]
          rfl
        · rw [gw_writeHeader_buf]
          rfl
        · rw [gw_writeHeader_minLength]
          rfl
        · exact gw_writeHeader_compressing _ c rfl
  · rw [if_pos (by simp [hacc])]
    unfold plainRun
    have hbase : ∀ s : Sink, s.headers = [] → s.chunks = [] →
        hHas (writes.foldl (fun s b => s.writeChunk (.plain b)) s).headers
          "Content-Encoding" = false ∧
        noGzChunks (writes.foldl (fun s b => s.writeChunk (.plain b)) s) = true ∧
        plainConcat (writes.foldl (fun s b => s.writeChunk (.plain b)) s) = joinAll writes := by
      intro s hh hc
      rw [foldl_writeChunk]
      refine ⟨by simp [hHas, hh], ?_, ?_⟩
      · simp [noGzChunks, hc, noGz_map_plain]
      · simp [plainConcat, hc, chunksFoldr_map_plain]
    cases code with
    | none => exact hbase emptySink rfl rfl
    | some c =>
        refine hbase (emptySink.writeHeader c) ?_ ?_
        · rw [writeHeader_headers]
          rfl
        · rw [writeHeader_chunks]
          rfl

/-- Witness for C7 at a concrete configuration and a small concrete body. -/
theorem c7_small_response_uncompressed_witness :
    hHas (gzipServe 256 "gzip" (some 200) ["ti", "ny"] emptySink).headers
      "Content-Encoding" = false ∧
    noGzChunks (gzipServe 256 "gzip" (some 200) ["ti", "ny"] emptySink) = true ∧
    plainConcat (gzipServe 256 "gzip" (some 200) ["ti", "ny"] emptySink) =
      joinAll ["ti", "ny"] := by
  exact c7_small_response_uncompressed 256 "gzip" (some 200) ["ti", "ny"] (by decide)

theorem hHas_filter_pres (hs : List (String × String)) (k k2 : String) (hne : k2 ≠ k)
    (h : hHas hs k2 = true) :
    hHas (hs.filter (fun kv => kv.1 ≠ k)) k2 = true := by
  induction hs with
  | nil => simp [hHas] at h
  | cons kv rest ih =>
      obtain ⟨k0, v0⟩ := kv
      by_cases h0 : k0 = k2
      · subst h0
        simp [List.filter_cons, hHas, hne]
      · rw [show hHas ((k0, v0) :: rest) k2 = if k0 = k2 then true else hHas rest k2 from rfl,
          if_neg h0] at h
        by_cases hk : k0 = k
        · simp only [List.filter_cons]
          rw [if_neg (by simp [hk])]
          exact ih h
        · simp only [List.filter_cons]
          rw [if_pos (by simp [hk])]
          rw [show ∀ l, hHas ((k0, v0) :: l) k2 = if k0 = k2 then true else hHas l k2
            from fun l => rfl, if_neg h0]
          exact ih h

theorem hHas_append_left (hs1 hs2 : List (String × String)) (k : String)
    (h : hHas hs1 k = true) : hHas (hs1 ++ hs2) k = true := by
  induction hs1 with
  | nil => simp [hHas] at h
  | cons kv rest ih =>
      obtain ⟨k0, v0⟩ := kv
      by_cases h0 : k0 = k <;> simp_all [hHas]

theorem hHas_hSet_pres (hs : List (String × String)) (k v k2 : String) (hne : k2 ≠ k)
    (h : hHas hs k2 = true) : hHas (hSet hs k v) k2 = true :=
  hHas_append_left _ _ _ (hHas_filter_pres hs k k2 hne h)

theorem hHas_hDel_pres (hs : List (String × String)) (k k2 : String) (hne : k2 ≠ k)
    (h : hHas hs k2 = true) : hHas (hDel hs k) k2 = true :=
  hHas_filter_pres hs k k2 hne h

theorem decideNow_vary (w : GzipWriter) (h : hHas w.sink.headers "Vary" = true) :
    hHas (GzipWriter.decideNow w).sink.headers "Vary" = true := by
  by_cases hskip : shouldSkipContentType (hGet w.sink.headers "Content-Type") = true
  · simp only [GzipWriter.decideNow]
    rw [if_pos hskip]
    exact h
  · simp only [GzipWriter.decideNow]
    rw [if_neg hskip]
    exact hHas_hSet_pres _ _ _ _ (by decide) (hHas_hDel_pres _ _ _ (by decide) h)

theorem flushBuf_headers (w : GzipWriter) :
    (GzipWriter.flushBuf w).sink.headers = w.sink.headers := by
  by_cases h1 : w.headerWritten <;> by_cases h2 : w.statusCode = 0 <;>
    by_cases h3 : w.buf = "" <;> by_cases h4 : w.compressing <;>
    simp [GzipWriter.flushBuf, h1, h2, h3, h4, Sink.writeChunk, writeHeader_headers]

theorem write_vary (w : GzipWriter) (b : String) (h : hHas w.sink.headers "Vary" = true) :
    hHas (GzipWriter.write w b).sink.headers "Vary" = true := by
  by_cases h1 : w.decided
  · by_cases h2 : w.compressing
    · simp only [GzipWriter.write]
      rw [if_neg (by simp [h1]), if_pos h2]
      exact h
    · simp only [GzipWriter.write]
      rw [if_neg (by simp [h1]), if_neg (by simp [h2])]
      exact h
  · simp only [GzipWriter.write]
    rw [if_pos (by simp [h1])]
    by_cases h2 : w.minLength ≤ (w.buf ++ b).length
    · rw [if_pos h2, flushBuf_headers]
      exact decideNow_vary _ h
    · rw [if_neg h2]
      exact h

theorem runWrites_vary (writes : List String) :
    ∀ w : GzipWriter, hHas w.sink.headers "Vary" = true →
      hHas (GzipWriter.runWrites w writes).sink.headers "Vary" = true := by
  induction writes with
  | nil =>
      intro w h
      exact h
  | cons b rest ih =>
      intro w h
      have hrun : GzipWriter.runWrites w (b :: rest) =
          GzipWriter.runWrites (w.write b) rest := rfl
      rw [hrun]
      exact ih _ (write_vary w b h)

/-- C8 (amended).  Once the gzip middleware is installed, every response to a
request whose Accept-Encoding advertises gzip carries a `Vary:
Accept-Encoding` header, even when the final decision for that response is
not to compress; a request that does not advertise gzip bypasses the wrapper
entirely and receives no Vary header from this middleware. -/
theorem c8_vary_when_client_advertises (minLength : Nat) (accept : String)
    (code : Option Nat) (writes : List String)
    (hacc : containsSubstr accept "gzip" = true) :
    hHas (gzipServe minLength accept code writes emptySink).headers "Vary" = true := by
  unfold gzipServe
  rw [if_neg (by simp [hacc]), close_headers]
  apply runWrites_vary
  cases code with
  | none =>
      show hHas [("Vary", "Accept-Encoding")] "Vary" = true
      decide
  | some c =>
      rw [gw_writeHeader_sink_headers]
      show hHas [("Vary", "Accept-Encoding")] "Vary" = true
      decide

/-- Witness for the amended C8: a gzip-capable client receives the Vary
header even on a tiny, uncompressed response. -/
theorem c8_vary_when_client_advertises_witness :
    hHas (gzipServe 256 "gzip" (some 200) ["tiny"] emptySink).headers "Vary" = true := by
  exact c8_vary_when_client_advertises 256 "gzip" (some 200) ["tiny"] (by decide)

end Quokka
